import Mathlib

/-!
Verification development for the pro-prompter change-document pipeline and
file-tree selection aggregator.  Texts (file paths and file contents) are
modelled as `List Char`; the JavaScript string operations used by the code
(`includes`, `replace` with its replacement-pattern substitution, spreads,
`Set`, `filter`) are embedded as executable Lean functions below.
-/

namespace ProPrompter

abbrev Path := List Char
abbrev Content := List Char

/-- Whether `s` occurs at the start of `l` (JavaScript `startsWith` on the
character level; used to locate substring occurrences). -/
def isPre : List Char → List Char → Bool
  | [], _ => true
  | _ :: _, [] => false
  | a :: s, b :: l => a == b && isPre s l

/-- Locate the first occurrence of `s` in `l`: returns the text before and
after that occurrence (the split JavaScript `indexOf`/`replace` works with),
or `none` when `s` does not occur. -/
def findSplit (s : List Char) : List Char → Option (List Char × List Char)
  | [] => if s.isEmpty then some ([], []) else none
  | c :: r =>
    if isPre s (c :: r) then some ([], List.drop s.length (c :: r))
    else (findSplit s r).map (fun pr => (c :: pr.1, pr.2))

/-- JavaScript `String.prototype.includes` on the character level. -/
def containsSub (l s : List Char) : Bool := (findSplit s l).isSome

def dollarChar : Char := '$'
def ampChar : Char := '&'
def tickChar : Char := Char.ofNat 96
def aposChar : Char := Char.ofNat 39

/-- The `GetSubstitution` step of JavaScript `String.prototype.replace` with a
string search value: in the replacement text, `$$` yields `$`, `$&` the
matched text, `$` followed by the character 96 the text before the match,
`$` followed by the character 39 the text after the match; every other
character (including any other `$` sequence, since there are no capture
groups) is copied literally. -/
def getSubstitution (matched before after : List Char) : List Char → List Char
  | [] => []
  | [c] => [c]
  | c :: d :: r =>
    if c == dollarChar then
      if d == dollarChar then dollarChar :: getSubstitution matched before after r
      else if d == ampChar then matched ++ getSubstitution matched before after r
      else if d == tickChar then before ++ getSubstitution matched before after r
      else if d == aposChar then after ++ getSubstitution matched before after r
      else c :: getSubstitution matched before after (d :: r)
    else c :: getSubstitution matched before after (d :: r)

/-- JavaScript `modified.replace(search, content)` with string arguments:
replace the first occurrence of `s` in `l` by the substituted replacement;
when `s` does not occur the string is returned unchanged. -/
def jsReplace (l s content : List Char) : List Char :=
  match findSplit s l with
  | some pr => pr.1 ++ getSubstitution s pr.1 pr.2 content ++ pr.2
  | none => l

/-! ## Data model (src/types.ts) -/

inductive ChangeAction where
  | Create
  | Rewrite
  | Modify
  | Delete
deriving DecidableEq, Repr

structure ChangeOperation where
  description : List Char
  search : Option (List Char)
  content : List Char
deriving DecidableEq, Repr

structure FileChange where
  path : Path
  action : ChangeAction
  changes : List ChangeOperation
deriving DecidableEq, Repr

structure ChangeResult where
  path : Path
  action : ChangeAction
  success : Bool
  message : Option (List Char)
deriving DecidableEq, Repr

structure DiffPreview where
  path : Path
  original : Content
  modified : Content
  hasChanges : Bool
deriving DecidableEq, Repr

/-! ## Diff engine (handleGenerateDiff in src/components/xml-mode.tsx) -/

/-- The component's `fileContents` map, as an association list. -/
abbrev ContentsMap := List (Path × Content)

def lookupContent : ContentsMap → Path → Option Content
  | [], _ => none
  | e :: m, p => if e.1 = p then some e.2 else lookupContent m p

def notFoundText : Content := "// File not found".toList
def newFileText : Content := "// New file will be created".toList
def deletedText : Content := "// File will be deleted".toList

/-- `fileContents.get(change.path) || '// File not found'`: the placeholder is
used both when the path is missing and when its content is the empty string
(JavaScript `||` treats the empty string as falsy). -/
def getContent (m : ContentsMap) (p : Path) : Content :=
  match lookupContent m p with
  | some c => if c.isEmpty then notFoundText else c
  | none => notFoundText

/-- One iteration of the `Modify` loop:
`if (c.search && modified.includes(c.search)) modified = modified.replace(c.search, c.content)`.
An absent or empty `search`, or one not occurring in the working text, leaves
the text unchanged. -/
def modifyStep (m : Content) (op : ChangeOperation) : Content :=
  match op.search with
  | none => m
  | some s => if s.isEmpty then m else if containsSub m s then jsReplace m s op.content else m

/-- The preview record pushed for one `FileChange`; `none` models the
uncaught field access `change.changes[0].content` on an empty operation
list for `Create`/`Rewrite` (a thrown `TypeError` in the source). -/
def previewChange (contents : ContentsMap) (ch : FileChange) : Option DiffPreview :=
  match ch.action with
  | .Create =>
    (ch.changes.head?).map fun op =>
      { path := ch.path, original := newFileText, modified := op.content, hasChanges := true }
  | .Delete =>
    some { path := ch.path, original := getContent contents ch.path,
           modified := deletedText, hasChanges := true }
  | .Rewrite =>
    (ch.changes.head?).map fun op =>
      let original := getContent contents ch.path
      { path := ch.path, original := original, modified := op.content,
        hasChanges := decide (original ≠ op.content) }
  | .Modify =>
    let original := getContent contents ch.path
    let modified := ch.changes.foldl modifyStep original
    some { path := ch.path, original := original, modified := modified,
           hasChanges := decide (original ≠ modified) }

/-- The preview loop, threading the contents map through each iteration the
way the JavaScript closure holds `fileContents`: the loop only ever reads the
map, and the map that emerges is returned alongside the previews.  `none`
models an exception escaping the loop. -/
def generateDiffT (contents : ContentsMap) : List FileChange → Option (List DiffPreview × ContentsMap)
  | [] => some ([], contents)
  | ch :: rest =>
    match previewChange contents ch with
    | none => none
    | some d =>
      match generateDiffT contents rest with
      | none => none
      | some pr => some (d :: pr.1, pr.2)

def generateDiffPreview (contents : ContentsMap) (changes : List FileChange) :
    Option (List DiffPreview) :=
  (generateDiffT contents changes).map (fun pr => pr.1)

/-! ## The component state transition of handleGenerateDiff -/

inductive TabState where
  | previewTab
  | xmlTab
deriving DecidableEq, Repr

structure XmlModeState where
  diffPreview : List DiffPreview
  parsedChanges : List FileChange
  errorMsg : Option (List Char)
  activeTab : TabState
deriving DecidableEq, Repr

/-- `handleGenerateDiff` as a transition on the component state.  The parse
of the reply text is the backend call `parseXmlResponse`; its outcome is the
`Except` argument.  On a parse error the hook records the message and the
handler's `catch` is taken before `setParsedChanges`/`setDiffPreview` run, so
only `errorMsg` changes.  On success `parsedChanges` is set first; if the
preview loop then throws (empty `changes` on `Create`/`Rewrite`),
`diffPreview` is left as it was. -/
def handleGenerateDiff (contents : ContentsMap)
    (parseResult : Except (List Char) (List FileChange)) (s : XmlModeState) : XmlModeState :=
  match parseResult with
  | .error e => { s with errorMsg := some e }
  | .ok changes =>
    let s1 := { s with parsedChanges := changes, errorMsg := none }
    match generateDiffPreview contents changes with
    | none => s1
    | some ps => { s1 with diffPreview := ps, activeTab := .previewTab }

/-! ## File tree and selection (src/components/file-explorer.tsx) -/

inductive FileItem where
  | file (path : Path) (name : List Char) (size : Option Nat)
  | dir (path : Path) (name : List Char) (children : List FileItem)
deriving Repr

mutual

/-- `getAllFilePaths` from `FileTreeNode`: the transitive list of descendant
file paths (a file contributes its own path). -/
def getAllFilePaths : FileItem → List Path
  | .file p _ _ => [p]
  | .dir _ _ cs => getAllFilePathsList cs

def getAllFilePathsList : List FileItem → List Path
  | [] => []
  | x :: xs => getAllFilePaths x ++ getAllFilePathsList xs

end

inductive TriState where
  | Checked
  | Indeterminate
  | Unchecked
deriving DecidableEq, Repr

/-- The directory branch of the checkbox state: `isChecked := allSelected`
and `isIndeterminate := someSelected && !allSelected` are computed only when
`allFilePaths.length > 0`, then the `data-state` attribute picks
`indeterminate` first, else `checked`, else `unchecked`. -/
def dirStatusCore (sel : List Path) (paths : List Path) : TriState :=
  if 0 < paths.length then
    let allSelected := paths.all (fun p => decide (p ∈ sel))
    let someSelected := paths.any (fun p => decide (p ∈ sel))
    if someSelected && !allSelected then .Indeterminate
    else if allSelected then .Checked
    else .Unchecked
  else .Unchecked

/-- The checkbox state rendered for a node: a file is checked exactly when
its path is selected; a directory aggregates over its transitive descendant
file paths. -/
def nodeStatus (sel : List Path) : FileItem → TriState
  | .file p _ _ => if p ∈ sel then .Checked else .Unchecked
  | .dir _ _ cs => dirStatusCore sel (getAllFilePathsList cs)

/-- `[...new Set(l)]`: JavaScript `Set` iteration order keeps the first
occurrence of each element. -/
def dedupFirst (seen : List Path) : List Path → List Path
  | [] => []
  | a :: l => if a ∈ seen then dedupFirst seen l else a :: dedupFirst (a :: seen) l

/-- `handleCheckboxChange`: a file toggled on is appended to `selectedFiles`
(unconditionally), toggled off it is filtered out; a directory toggled on
splices in its whole descendant path list and deduplicates through a `Set`,
toggled off its descendant paths are filtered out. -/
def handleCheckboxChange (item : FileItem) (selectedFiles : List Path) (checked : Bool) :
    List Path :=
  match item with
  | .file p _ _ =>
    if checked then selectedFiles ++ [p]
    else selectedFiles.filter (fun q => decide (q ≠ p))
  | .dir _ _ _ =>
    if checked then dedupFirst [] (selectedFiles ++ getAllFilePaths item)
    else selectedFiles.filter (fun q => !decide (q ∈ getAllFilePaths item))

/-! ## Change applier

The `apply_xml_changes` backend command invoked from
src/hooks/use-xml-parser.ts is not part of the frontend sources; it is
modelled from the spec below. -/

structure UndoSnapshot where
  path : Path
  priorContent : Option Content
deriving DecidableEq, Repr

structure ApplyState where
  fs : List (Path × Content)
  batch : List UndoSnapshot
deriving DecidableEq, Repr

def removeKey (m : List (Path × Content)) (p : Path) : List (Path × Content) :=
  m.filter (fun e => decide (e.1 ≠ p))

def setKey (m : List (Path × Content)) (p : Path) (c : Content) : List (Path × Content) :=
  removeKey m p ++ [(p, c)]

def ioErrorText : List Char := "IoError: write failed".toList

/-- Modelled from the spec: step 3 of the Applier algorithm computes the new
content "using the same per-action rule as the Diff Engine". -/
def newContentFor (a : ChangeAction) (ops : List ChangeOperation) (cur : Content) : Content :=
  match a with
  | .Create => ((ops.head?).map (fun o => o.content)).getD []
  | .Rewrite => ((ops.head?).map (fun o => o.content)).getD []
  | .Modify => ops.foldl modifyStep cur
  | .Delete => []

/-- Modelled from the spec: one Applier step for a single `FileChange` —
read the current content, record an `UndoSnapshot` before mutating, then
write or delete; a failing write or delete (the `writeFails` oracle stands
for the external writer's `IoError`) is downgraded to a
`ChangeResult` with `success = false` and a message. -/
def applyOne (writeFails : Path → Bool) (st : ApplyState) (ch : FileChange) :
    ApplyState × ChangeResult :=
  let current := lookupContent st.fs ch.path
  let st1 : ApplyState := { st with batch := st.batch ++ [⟨ch.path, current⟩] }
  if writeFails ch.path then
    (st1, { path := ch.path, action := ch.action, success := false, message := some ioErrorText })
  else
    match ch.action with
    | .Delete =>
      ({ st1 with fs := removeKey st1.fs ch.path },
       { path := ch.path, action := ch.action, success := true, message := none })
    | a =>
      ({ st1 with fs := setKey st1.fs ch.path (newContentFor a ch.changes (current.getD [])) },
       { path := ch.path, action := ch.action, success := true, message := none })

/-- Modelled from the spec: `apply(changes)` processes every `FileChange` in
input order, never aborting on failure, and returns one `ChangeResult` per
input entry in the same order; every attempted entry contributes a snapshot
to the batch. -/
def applyXmlChanges (writeFails : Path → Bool) :
    ApplyState → List FileChange → ApplyState × List ChangeResult
  | st, [] => (st, [])
  | st, ch :: rest =>
    let step := applyOne writeFails st ch
    let tail := applyXmlChanges writeFails step.1 rest
    (tail.1, step.2 :: tail.2)

/-- The replacement operation the specification describes for `Modify`:
the first occurrence of the search string is replaced by the content string
taken literally.  Stated from the spec's words, to be compared with the
source's `modifyStep`. -/
def literalFirstReplace (w s content : Content) : Content :=
  match findSplit s w with
  | some pr => pr.1 ++ content ++ pr.2
  | none => w

/-! ## Helper lemmas -/

theorem isPre_iff (s : List Char) : ∀ l : List Char, isPre s l = true ↔ ∃ t, l = s ++ t := by
  induction s with
  | nil => intro l; simp [isPre]
  | cons a s ih =>
    intro l
    cases l with
    | nil =>
      simp only [isPre, List.cons_append]
      constructor
      · intro h; cases h
      · rintro ⟨t, ht⟩; cases ht
    | cons b l =>
      simp only [isPre, Bool.and_eq_true, beq_iff_eq, List.cons_append]
      constructor
      · rintro ⟨rfl, hp⟩
        obtain ⟨t, rfl⟩ := (ih l).mp hp
        exact ⟨t, rfl⟩
      · rintro ⟨t, ht⟩
        injection ht with h1 h2
        exact ⟨h1.symm, (ih l).mpr ⟨t, h2⟩⟩

theorem findSplit_decomp (s : List Char) :
    ∀ l p q : List Char, findSplit s l = some (p, q) → l = p ++ s ++ q := by
  intro l
  induction l with
  | nil =>
    intro p q h
    cases s with
    | nil =>
      simp [findSplit] at h
      simp [h.1, h.2]
    | cons c s' => simp [findSplit, List.isEmpty] at h
  | cons c r ih =>
    intro p q h
    by_cases hp : isPre s (c :: r) = true
    · rw [findSplit, if_pos hp] at h
      obtain ⟨t, ht⟩ := (isPre_iff s (c :: r)).mp hp
      injection h with h'
      injection h' with h1 h2
      subst h1
      rw [ht, List.drop_left] at h2
      subst h2
      simpa using ht
    · rw [findSplit, if_neg hp] at h
      rw [Option.map_eq_some'] at h
      obtain ⟨⟨p0, q0⟩, hfs, heq⟩ := h
      injection heq with h1 h2
      subst h1; subst h2
      have := ih p0 q0 hfs
      simp [this]

theorem findSplit_min (s : List Char) :
    ∀ l p q : List Char, findSplit s l = some (p, q) →
      ∀ p2 q2 : List Char, l = p2 ++ s ++ q2 → p.length ≤ p2.length := by
  intro l
  induction l with
  | nil =>
    intro p q h p2 q2 _
    cases s with
    | nil =>
      simp [findSplit] at h
      simp [h.1]
    | cons c s' => simp [findSplit, List.isEmpty] at h
  | cons c r ih =>
    intro p q h p2 q2 hl
    by_cases hp : isPre s (c :: r) = true
    · rw [findSplit, if_pos hp] at h
      injection h with h'
      injection h' with h1 _
      subst h1
      simp
    · rw [findSplit, if_neg hp] at h
      rw [Option.map_eq_some'] at h
      obtain ⟨⟨p0, q0⟩, hfs, heq⟩ := h
      injection heq with h1 h2
      subst h1; subst h2
      cases p2 with
      | nil =>
        exfalso
        apply hp
        exact (isPre_iff s (c :: r)).mpr ⟨q2, by simpa using hl⟩
      | cons c2 p2' =>
        simp only [List.cons_append] at hl
        injection hl with hc hrest
        simpa using ih p0 q0 hfs p2' q2 hrest

theorem findSplit_isSome_of_decomp (s : List Char) :
    ∀ p l q : List Char, l = p ++ s ++ q → (findSplit s l).isSome = true := by
  intro p
  induction p with
  | nil =>
    intro l q hl
    simp only [List.nil_append] at hl
    have hpre : isPre s l = true := (isPre_iff s l).mpr ⟨q, hl⟩
    cases l with
    | nil =>
      cases s with
      | nil => simp [findSplit]
      | cons c s' => cases hl
    | cons c r => rw [findSplit, if_pos hpre]; rfl
  | cons a p' ih =>
    intro l q hl
    subst hl
    simp only [List.cons_append]
    by_cases hp : isPre s (a :: (p' ++ s ++ q)) = true
    · rw [findSplit, if_pos hp]; rfl
    · rw [findSplit, if_neg hp]
      have h1 := ih (p' ++ s ++ q) q rfl
      cases hfs : findSplit s (p' ++ s ++ q) with
      | none => rw [hfs] at h1; cases h1
      | some pr => rfl

theorem containsSub_iff (l s : List Char) :
    containsSub l s = true ↔ ∃ p q, l = p ++ s ++ q := by
  constructor
  · intro h
    rw [containsSub] at h
    obtain ⟨⟨p, q⟩, hpq⟩ := Option.isSome_iff_exists.mp h
    exact ⟨p, q, findSplit_decomp s l p q hpq⟩
  · rintro ⟨p, q, hl⟩
    exact findSplit_isSome_of_decomp s p l q hl

theorem mem_dedupFirst (a : Path) :
    ∀ (l seen : List Path), a ∈ dedupFirst seen l ↔ a ∈ l ∧ a ∉ seen := by
  intro l
  induction l with
  | nil => intro seen; simp [dedupFirst]
  | cons b l ih =>
    intro seen
    by_cases hb : b ∈ seen
    · rw [dedupFirst, if_pos hb, ih]
      constructor
      · rintro ⟨h1, h2⟩; exact ⟨List.mem_cons_of_mem _ h1, h2⟩
      · rintro ⟨h1, h2⟩
        rcases List.mem_cons.mp h1 with rfl | h1
        · exact absurd hb h2
        · exact ⟨h1, h2⟩
    · rw [dedupFirst, if_neg hb]
      constructor
      · intro h
        rcases List.mem_cons.mp h with rfl | h
        · exact ⟨List.mem_cons_self _ _, hb⟩
        · obtain ⟨h1, h2⟩ := (ih (b :: seen)).mp h
          exact ⟨List.mem_cons_of_mem _ h1,
            fun hs => h2 (List.mem_cons_of_mem _ hs)⟩
      · rintro ⟨h1, h2⟩
        by_cases hab : a = b
        · subst hab; exact List.mem_cons_self _ _
        · rcases List.mem_cons.mp h1 with rfl | h1
          · exact absurd rfl hab
          · refine List.mem_cons_of_mem _ ?_
            refine (ih (b :: seen)).mpr ⟨h1, fun hs => ?_⟩
            rcases List.mem_cons.mp hs with h | h
            · exact hab h
            · exact h2 h

theorem nodup_dedupFirst : ∀ (l seen : List Path), (dedupFirst seen l).Nodup := by
  intro l
  induction l with
  | nil => intro seen; simp [dedupFirst]
  | cons b l ih =>
    intro seen
    by_cases hb : b ∈ seen
    · rw [dedupFirst, if_pos hb]; exact ih seen
    · rw [dedupFirst, if_neg hb]
      refine List.nodup_cons.mpr ⟨fun hmem => ?_, ih (b :: seen)⟩
      exact ((mem_dedupFirst b l (b :: seen)).mp hmem).2 (List.mem_cons_self _ _)

theorem generateDiffT_snd :
    ∀ (changes : List FileChange) (contents m : ContentsMap) (ds : List DiffPreview),
      generateDiffT contents changes = some (ds, m) → m = contents := by
  intro changes
  induction changes with
  | nil =>
    intro contents m ds h
    rw [generateDiffT] at h
    injection h with h'
    injection h' with _ h2
    exact h2.symm
  | cons ch rest ih =>
    intro contents m ds h
    rw [generateDiffT] at h
    cases hpc : previewChange contents ch with
    | none => rw [hpc] at h; cases h
    | some d =>
      rw [hpc] at h
      cases hg : generateDiffT contents rest with
      | none => rw [hg] at h; cases h
      | some pr =>
        rw [hg] at h
        injection h with h'
        injection h' with _ h2
        subst h2
        exact ih contents pr.2 pr.1 (by rw [hg])

theorem dirStatusCore_eq (sel : List Path) (a : Path) (l : List Path) :
    dirStatusCore sel (a :: l) =
      if ∀ p ∈ a :: l, p ∈ sel then .Checked
      else if ∃ p ∈ a :: l, p ∈ sel then .Indeterminate
      else .Unchecked := by
  by_cases hA : ∀ p ∈ a :: l, p ∈ sel
  · have h1 : ((a :: l).all fun p => decide (p ∈ sel)) = true := by
      simp only [List.all_eq_true, decide_eq_true_eq]; exact hA
    have h2 : ((a :: l).any fun p => decide (p ∈ sel)) = true := by
      simp only [List.any_eq_true, decide_eq_true_eq]
      exact ⟨a, List.mem_cons_self _ _, hA a (List.mem_cons_self _ _)⟩
    rw [if_pos hA]
    simp [dirStatusCore, h1, h2]
  · have h1 : ((a :: l).all fun p => decide (p ∈ sel)) = false := by
      rw [← Bool.not_eq_true]
      simp only [List.all_eq_true, decide_eq_true_eq]; exact hA
    rw [if_neg hA]
    by_cases hS : ∃ p ∈ a :: l, p ∈ sel
    · have h2 : ((a :: l).any fun p => decide (p ∈ sel)) = true := by
        simp only [List.any_eq_true, decide_eq_true_eq]; exact hS
      rw [if_pos hS]
      simp [dirStatusCore, h1, h2]
    · have h2 : ((a :: l).any fun p => decide (p ∈ sel)) = false := by
        rw [← Bool.not_eq_true]
        simp only [List.any_eq_true, decide_eq_true_eq]; exact hS
      rw [if_neg hS]
      simp [dirStatusCore, h1, h2]

theorem dirStatusCore_spec (sel paths : List Path) :
    (dirStatusCore sel paths = .Checked ↔ paths ≠ [] ∧ ∀ p ∈ paths, p ∈ sel)
    ∧ (dirStatusCore sel paths = .Unchecked ↔ ∀ p ∈ paths, p ∉ sel)
    ∧ (dirStatusCore sel paths = .Indeterminate ↔
        (∃ p ∈ paths, p ∈ sel) ∧ ∃ p ∈ paths, p ∉ sel) := by
  cases paths with
  | nil => simp [dirStatusCore]
  | cons a l =>
    rw [dirStatusCore_eq]
    by_cases hA : ∀ p ∈ a :: l, p ∈ sel
    · rw [if_pos hA]
      refine ⟨⟨fun _ => ⟨List.cons_ne_nil a l, hA⟩, fun _ => rfl⟩, ?_, ?_⟩
      · constructor
        · intro h; cases h
        · intro h
          exact absurd (hA a (List.mem_cons_self _ _)) (h a (List.mem_cons_self _ _))
      · constructor
        · intro h; cases h
        · rintro ⟨_, ⟨p, hp, hps⟩⟩
          exact absurd (hA p hp) hps
    · rw [if_neg hA]
      push_neg at hA
      obtain ⟨w, hw, hws⟩ := hA
      by_cases hS : ∃ p ∈ a :: l, p ∈ sel
      · rw [if_pos hS]
        refine ⟨?_, ?_, ?_⟩
        · constructor
          · intro h; cases h
          · rintro ⟨_, h⟩
            exact absurd (h w hw) hws
        · constructor
          · intro h; cases h
          · intro h
            obtain ⟨p, hp, hps⟩ := hS
            exact absurd hps (h p hp)
        · exact ⟨fun _ => ⟨hS, ⟨w, hw, hws⟩⟩, fun _ => rfl⟩
      · rw [if_neg hS]
        push_neg at hS
        refine ⟨?_, ⟨fun _ => hS, fun _ => rfl⟩, ?_⟩
        · constructor
          · intro h; cases h
          · rintro ⟨_, h⟩
            exact absurd (h w hw) hws
        · constructor
          · intro h; cases h
          · rintro ⟨⟨p, hp, hps⟩, _⟩
            exact absurd hps (hS p hp)

theorem applyOne_result (writeFails : Path → Bool) (st : ApplyState) (ch : FileChange) :
    (applyOne writeFails st ch).2.path = ch.path
    ∧ (applyOne writeFails st ch).2.action = ch.action
    ∧ ((applyOne writeFails st ch).2.success = true ↔ writeFails ch.path = false)
    ∧ ((applyOne writeFails st ch).2.success = false →
        ((applyOne writeFails st ch).2.message).isSome = true)
    ∧ (applyOne writeFails st ch).1.batch.length = st.batch.length + 1 := by
  obtain ⟨p, a, ops⟩ := ch
  cases hw : writeFails p with
  | true => cases a <;> simp [applyOne, hw]
  | false => cases a <;> simp [applyOne, hw]

/-! ## Claim theorems -/

/-- C1 (amended): for every `Modify` FileChange the preview starts from the
looked-up current content and folds the operations in order; an operation
whose search string is defined, non-empty and occurs in the working text
replaces exactly the first occurrence (no occurrence starts earlier) with
its content string interpreted under JavaScript replacement-pattern
substitution — not taken literally. -/
theorem modify_preview_replaces_first :
    (∀ (contents : ContentsMap) (path : Path) (ops : List ChangeOperation),
        previewChange contents ⟨path, .Modify, ops⟩ =
          some { path := path, original := getContent contents path,
                 modified := ops.foldl modifyStep (getContent contents path),
                 hasChanges := decide
                   (getContent contents path ≠ ops.foldl modifyStep (getContent contents path)) })
    ∧ ∀ (w : Content) (op : ChangeOperation) (s p q : List Char),
        op.search = some s → s ≠ [] → findSplit s w = some (p, q) →
        w = p ++ s ++ q
        ∧ (∀ p2 q2 : List Char, w = p2 ++ s ++ q2 → p.length ≤ p2.length)
        ∧ modifyStep w op = p ++ getSubstitution s p q op.content ++ q := by
  constructor
  · intro contents path ops; rfl
  · intro w op s p q hs hne hf
    refine ⟨findSplit_decomp s w p q hf, findSplit_min s w p q hf, ?_⟩
    have hne' : s.isEmpty = false := by
      cases s with
      | nil => exact absurd rfl hne
      | cons c s' => rfl
    have hcs : containsSub w s = true := by rw [containsSub, hf]; rfl
    rw [modifyStep, hs]
    simp [hne', hcs, jsReplace, hf]

/-- C1 witness: the spec's own scenario — search `"foo"`, content `"bar"`
over `"foo baz foo"` gives `"bar baz foo"`, replacing only the first
occurrence, which starts at position 0. -/
theorem modify_preview_replaces_first_witness :
    modifyStep "foo baz foo".toList ⟨[], some "foo".toList, "bar".toList⟩ = "bar baz foo".toList
    ∧ "foo baz foo".toList = [] ++ "foo".toList ++ " baz foo".toList
    ∧ modifyStep "foo baz foo".toList ⟨[], some "foo".toList, "bar".toList⟩
      = [] ++ getSubstitution "foo".toList [] " baz foo".toList "bar".toList ++ " baz foo".toList :=
  ⟨by decide,
   (modify_preview_replaces_first.2 "foo baz foo".toList ⟨[], some "foo".toList, "bar".toList⟩
      "foo".toList [] " baz foo".toList rfl (by decide) (by decide)).1,
   (modify_preview_replaces_first.2 "foo baz foo".toList ⟨[], some "foo".toList, "bar".toList⟩
      "foo".toList [] " baz foo".toList rfl (by decide) (by decide)).2.2⟩

/-- C1 counterexample: the content string is not taken literally for every
content string — for search `"a"`, content `"$&$&"` over current content
`"ab"` the code produces `"aab"` (the `$&` pattern re-inserts the match),
while literal replacement of the first occurrence would give `"$&$&b"`. -/
theorem modify_literal_replacement_cex :
    (previewChange [("x.py".toList, "ab".toList)]
        ⟨"x.py".toList, .Modify, [⟨[], some "a".toList, "$&$&".toList⟩]⟩).map
        (fun d => d.modified) = some "aab".toList
    ∧ some "aab".toList
      ≠ some (literalFirstReplace "ab".toList "a".toList "$&$&".toList) :=
  ⟨by decide, by decide⟩

/-- C5: an operation whose search string does not occur in the working text
is a no-op — the fold over the remaining operations continues from the
unchanged text — and the preview of a `Modify` file never aborts. -/
theorem modify_search_absent_noop (w : Content) (op : ChangeOperation)
    (rest : List ChangeOperation) (s : List Char)
    (hs : op.search = some s) (habs : containsSub w s = false) :
    List.foldl modifyStep w (op :: rest) = List.foldl modifyStep w rest
    ∧ ∀ (contents : ContentsMap) (path : Path) (ops : List ChangeOperation),
        (previewChange contents ⟨path, .Modify, ops⟩).isSome = true := by
  constructor
  · have hstep : modifyStep w op = w := by
      rw [modifyStep, hs]
      by_cases he : s.isEmpty <;> simp [he, habs]
    rw [List.foldl_cons, hstep]
  · intro contents path ops; rfl

/-- C5 witness: a stale search string (`"xyz"` absent from `"hello"`) is
skipped and the following operation is still applied. -/
theorem modify_search_absent_noop_witness :
    List.foldl modifyStep "hello".toList
        [⟨[], some "xyz".toList, "Q".toList⟩, ⟨[], some "ell".toList, "ELL".toList⟩]
      = List.foldl modifyStep "hello".toList [⟨[], some "ell".toList, "ELL".toList⟩]
    ∧ (previewChange [] ⟨"a".toList, .Modify, []⟩).isSome = true :=
  ⟨(modify_search_absent_noop "hello".toList ⟨[], some "xyz".toList, "Q".toList⟩
      [⟨[], some "ell".toList, "ELL".toList⟩] "xyz".toList rfl (by decide)).1,
   (modify_search_absent_noop "hello".toList ⟨[], some "xyz".toList, "Q".toList⟩
      [⟨[], some "ell".toList, "ELL".toList⟩] "xyz".toList rfl (by decide)).2
     [] "a".toList []⟩

/-- C6: when parsing the reply fails, `handleGenerateDiff` surfaces the
error and leaves the previously shown diff preview, the parsed changes and
the active tab untouched — no partial result replaces the preview. -/
theorem parse_error_preserves_preview (contents : ContentsMap) (e : List Char)
    (s : XmlModeState) :
    (handleGenerateDiff contents (.error e) s).diffPreview = s.diffPreview
    ∧ (handleGenerateDiff contents (.error e) s).errorMsg = some e
    ∧ (handleGenerateDiff contents (.error e) s).parsedChanges = s.parsedChanges
    ∧ (handleGenerateDiff contents (.error e) s).activeTab = s.activeTab :=
  ⟨rfl, rfl, rfl, rfl⟩

/-- C7: the diff-preview computation is pure and idempotent — the contents
map that emerges from a run is the input map, and re-running on it yields
the identical previews and map. -/
theorem preview_idempotent_pure (contents m : ContentsMap) (changes : List FileChange)
    (ds : List DiffPreview) (h : generateDiffT contents changes = some (ds, m)) :
    m = contents ∧ generateDiffT m changes = some (ds, m) := by
  have hm := generateDiffT_snd changes contents m ds h
  subst hm
  exact ⟨rfl, h⟩

/-- C7 witness: a concrete run over one `Delete` change returns its input
map unchanged and is reproduced exactly by a second run. -/
theorem preview_idempotent_pure_witness :
    ([("a".toList, "x".toList)] : ContentsMap) = [("a".toList, "x".toList)]
    ∧ generateDiffT [("a".toList, "x".toList)] [⟨"a".toList, .Delete, []⟩]
      = some ([{ path := "a".toList, original := "x".toList, modified := deletedText,
                 hasChanges := true }], [("a".toList, "x".toList)]) :=
  preview_idempotent_pure [("a".toList, "x".toList)] [("a".toList, "x".toList)]
    [⟨"a".toList, .Delete, []⟩]
    [{ path := "a".toList, original := "x".toList, modified := deletedText, hasChanges := true }]
    (by decide)

/-- C9: the preview of a `Create` or `Rewrite` change reads the first
operation without a guard — on an empty operations list the computation is
undefined (`none`, the unhandled out-of-bounds access), while any change
carrying at least one operation is well-defined. -/
theorem create_rewrite_head_unguarded :
    (∀ (contents : ContentsMap) (path : Path),
        previewChange contents ⟨path, .Create, []⟩ = none
        ∧ previewChange contents ⟨path, .Rewrite, []⟩ = none)
    ∧ ∀ (contents : ContentsMap) (ch : FileChange),
        ch.changes ≠ [] → (previewChange contents ch).isSome = true := by
  constructor
  · intro contents path; exact ⟨rfl, rfl⟩
  · intro contents ch hne
    obtain ⟨p, a, ops⟩ := ch
    cases ops with
    | nil => exact absurd rfl hne
    | cons o os => cases a <;> rfl

/-- C9 witness: an empty `Create` yields the undefined marker, a one-element
`Create` is well-defined. -/
theorem create_rewrite_head_unguarded_witness :
    (previewChange [] ⟨"a".toList, .Create, []⟩ = none
      ∧ previewChange [] ⟨"a".toList, .Rewrite, []⟩ = none)
    ∧ (previewChange [] ⟨"a".toList, .Create, [⟨[], none, "x".toList⟩]⟩).isSome = true :=
  ⟨create_rewrite_head_unguarded.1 [] "a".toList,
   create_rewrite_head_unguarded.2 [] ⟨"a".toList, .Create, [⟨[], none, "x".toList⟩]⟩
     (by decide)⟩

/-- C2 (spec-modelled): `apply` returns exactly one `ChangeResult` per input
`FileChange`, in input order; a failing entry gets `success = false` with a
message and the others `success = true`; a failure never aborts the batch,
and every attempted entry contributes an undo snapshot. -/
theorem apply_failure_isolation (writeFails : Path → Bool) (st : ApplyState)
    (changes : List FileChange) :
    (applyXmlChanges writeFails st changes).2.map (fun r => (r.path, r.action))
      = changes.map (fun c => (c.path, c.action))
    ∧ (∀ r ∈ (applyXmlChanges writeFails st changes).2,
        (r.success = true ↔ writeFails r.path = false)
        ∧ (r.success = false → (r.message).isSome = true))
    ∧ (applyXmlChanges writeFails st changes).1.batch.length
      = st.batch.length + changes.length := by
  induction changes generalizing st with
  | nil =>
    exact ⟨rfl, fun r hr => absurd hr (List.not_mem_nil r), by simp [applyXmlChanges]⟩
  | cons ch rest ih =>
    obtain ⟨hpath, haction, hsucc, hmsg, hbatch⟩ := applyOne_result writeFails st ch
    obtain ⟨ih1, ih2, ih3⟩ := ih (applyOne writeFails st ch).1
    rw [applyXmlChanges]
    refine ⟨?_, ?_, ?_⟩
    · simp only [List.map_cons]
      rw [hpath, haction, ih1]
    · intro r hr
      rcases List.mem_cons.mp hr with rfl | hr
      · exact ⟨by rw [hpath]; exact hsucc, hmsg⟩
      · exact ih2 r hr
    · simp only [List.length_cons]
      rw [ih3, hbatch]
      omega

/-- C2 witness: the spec's scenario — two files, the first failing with an
`IoError`, the second succeeding — yields two results in input order, the
first unsuccessful with a message, the second successful; the batch records
both snapshots. -/
theorem apply_failure_isolation_witness :
    (applyXmlChanges (fun p => decide (p = "x".toList)) ⟨[], []⟩
        [⟨"x".toList, .Rewrite, [⟨[], none, "1".toList⟩]⟩,
         ⟨"y".toList, .Create, [⟨[], none, "2".toList⟩]⟩]).2.map (fun r => (r.path, r.action))
      = [("x".toList, .Rewrite), ("y".toList, .Create)]
    ∧ (applyXmlChanges (fun p => decide (p = "x".toList)) ⟨[], []⟩
        [⟨"x".toList, .Rewrite, [⟨[], none, "1".toList⟩]⟩,
         ⟨"y".toList, .Create, [⟨[], none, "2".toList⟩]⟩]).1.batch.length = 0 + 2
    ∧ (applyXmlChanges (fun p => decide (p = "x".toList)) ⟨[], []⟩
        [⟨"x".toList, .Rewrite, [⟨[], none, "1".toList⟩]⟩,
         ⟨"y".toList, .Create, [⟨[], none, "2".toList⟩]⟩]).2.map
        (fun r => (r.success, (r.message).isSome))
      = [(false, true), (true, false)] :=
  ⟨(apply_failure_isolation (fun p => decide (p = "x".toList)) ⟨[], []⟩
      [⟨"x".toList, .Rewrite, [⟨[], none, "1".toList⟩]⟩,
       ⟨"y".toList, .Create, [⟨[], none, "2".toList⟩]⟩]).1,
   (apply_failure_isolation (fun p => decide (p = "x".toList)) ⟨[], []⟩
      [⟨"x".toList, .Rewrite, [⟨[], none, "1".toList⟩]⟩,
       ⟨"y".toList, .Create, [⟨[], none, "2".toList⟩]⟩]).2.2,
   by decide⟩

/-- C3: a directory's tri-state over its transitive descendant file paths —
`Checked` iff the path set is non-empty and fully selected, `Unchecked` iff
no descendant is selected (in particular when the set is empty),
`Indeterminate` iff some but not all are selected. -/
theorem dir_tristate_status (dp dn : List Char) (cs : List FileItem) (sel : List Path) :
    (nodeStatus sel (.dir dp dn cs) = .Checked
      ↔ getAllFilePathsList cs ≠ [] ∧ ∀ p ∈ getAllFilePathsList cs, p ∈ sel)
    ∧ (nodeStatus sel (.dir dp dn cs) = .Unchecked
      ↔ ∀ p ∈ getAllFilePathsList cs, p ∉ sel)
    ∧ (nodeStatus sel (.dir dp dn cs) = .Indeterminate
      ↔ (∃ p ∈ getAllFilePathsList cs, p ∈ sel)
        ∧ ∃ p ∈ getAllFilePathsList cs, p ∉ sel) :=
  dirStatusCore_spec sel (getAllFilePathsList cs)

/-- C4: toggling a directory on makes the selection's membership the union
with the transitive descendant file-path set, toggling it off the set
difference — for every path, hence regardless of the directory's prior
checked or indeterminate state. -/
theorem dir_toggle_union_diff (dp dn : List Char) (cs : List FileItem) (sel : List Path)
    (q : Path) :
    (q ∈ handleCheckboxChange (.dir dp dn cs) sel true
      ↔ q ∈ sel ∨ q ∈ getAllFilePathsList cs)
    ∧ (q ∈ handleCheckboxChange (.dir dp dn cs) sel false
      ↔ q ∈ sel ∧ q ∉ getAllFilePathsList cs) := by
  constructor
  · rw [show handleCheckboxChange (.dir dp dn cs) sel true
        = dedupFirst [] (sel ++ getAllFilePathsList cs) from rfl]
    rw [mem_dedupFirst]
    simp [List.mem_append]
  · rw [show handleCheckboxChange (.dir dp dn cs) sel false
        = sel.filter (fun x => !decide (x ∈ getAllFilePathsList cs)) from rfl]
    simp [List.mem_filter]

/-- C8: toggling a file leaf changes the membership of exactly that one
path — on adds it, off removes it, and every other path's membership is
unchanged. -/
theorem leaf_toggle_membership (p nm : List Char) (sz : Option Nat) (sel : List Path)
    (q : Path) :
    (q ∈ handleCheckboxChange (.file p nm sz) sel true ↔ q ∈ sel ∨ q = p)
    ∧ (q ∈ handleCheckboxChange (.file p nm sz) sel false ↔ q ∈ sel ∧ q ≠ p) := by
  constructor
  · show q ∈ sel ++ [p] ↔ _
    simp [List.mem_append]
  · show q ∈ sel.filter (fun x => decide (x ≠ p)) ↔ _
    simp [List.mem_filter]

/-- C10: the selection is a list and leaf toggle-on appends unconditionally,
so a path already selected appears twice afterwards; a directory toggle-on
rebuilds the selection through a `Set` and is duplicate-free. -/
theorem selection_list_duplication (p nm : List Char) (sz : Option Nat) (sel : List Path)
    (h : p ∈ sel) :
    (handleCheckboxChange (.file p nm sz) sel true).countP (fun q => decide (q = p))
      = sel.countP (fun q => decide (q = p)) + 1
    ∧ 2 ≤ (handleCheckboxChange (.file p nm sz) sel true).countP (fun q => decide (q = p))
    ∧ ∀ (dp dn : List Char) (cs : List FileItem) (sel2 : List Path),
        (handleCheckboxChange (.dir dp dn cs) sel2 true).Nodup := by
  have hcount : (sel ++ [p]).countP (fun q => decide (q = p))
      = sel.countP (fun q => decide (q = p)) + 1 := by
    rw [List.countP_append]
    simp
  have hpos : 0 < sel.countP (fun q => decide (q = p)) := by
    rw [List.countP_pos_iff]
    exact ⟨p, h, by simp⟩
  refine ⟨hcount, ?_, ?_⟩
  · show 2 ≤ (sel ++ [p]).countP (fun q => decide (q = p))
    rw [hcount]
    omega
  · intro dp dn cs sel2
    exact nodup_dedupFirst _ _

/-- C10 witness: toggling the already-selected leaf `a` on yields a
selection counting `a` twice; a directory toggle-on result has no
duplicates. -/
theorem selection_list_duplication_witness :
    (handleCheckboxChange (.file "a".toList "a".toList none) ["a".toList] true).countP
        (fun q => decide (q = "a".toList))
      = (["a".toList] : List Path).countP (fun q => decide (q = "a".toList)) + 1
    ∧ 2 ≤ (handleCheckboxChange (.file "a".toList "a".toList none) ["a".toList] true).countP
        (fun q => decide (q = "a".toList))
    ∧ (handleCheckboxChange (.dir "d".toList "d".toList []) [] true).Nodup :=
  ⟨(selection_list_duplication "a".toList "a".toList none ["a".toList] (by decide)).1,
   (selection_list_duplication "a".toList "a".toList none ["a".toList] (by decide)).2.1,
   (selection_list_duplication "a".toList "a".toList none ["a".toList] (by decide)).2.2
     "d".toList "d".toList [] []⟩

end ProPrompter
